import Mathlib

/-!
Verification of `src/fix_progress.py`, a one-shot maintenance script that
applies seven ordered regex substitutions to the text of `src/progress.rs`
and writes the result back.  Texts are modelled as `List Char`; each
`re.sub` call is modelled by a per-rule matcher together with a generic
left-to-right non-overlapping substitution driver that mirrors the Python
`re.sub` semantics (the replacement text is not rescanned by the same rule;
scanning continues after the end of each match).
-/

namespace FixProgress

/-- A text, as Python holds it in the variable `content`. -/
abbrev Str := List Char

/-- Characters matched by the regex class `\w` (ASCII fragment, which is all
the target file uses): letters, digits and the underscore. -/
def isWordChar (c : Char) : Bool := c.isAlphanum || c = '_'

/-- Match the literal `lit` at the head of `s`; on success return the rest. -/
def stripLit : Str → Str → Option Str
  | [], s => some s
  | _ :: _, [] => none
  | l :: ls, c :: cs => if c = l then stripLit ls cs else none

/-- The lazy group-and-close `(.*?)\)` of rules 2 to 4: scan for the first
close parenthesis; `.` never matches a newline, so reaching a newline (or
the end of the text) without a close parenthesis means no match.  Returns
the captured text and the remainder after the close parenthesis. -/
def scanCapture : Str → Option (Str × Str)
  | [] => none
  | c :: cs =>
    if c = ')' then some ([], cs)
    else if c = '\n' then none
    else match scanCapture cs with
      | none => none
      | some (cap, rest) => some (c :: cap, rest)

/-- Rule 1 matcher, for `pub fn (\w+)\(&mut self` with replacement
`pub fn \1(&self`: at the head of `s`, the literal `pub fn `, then a
nonempty maximal run of word characters (the greedy `\w+`, which cannot
backtrack usefully because the next token is the non-word `(`), then the
literal `(&mut self`.  On success returns the replacement text and the
remainder after the match. -/
def matchRule1 (s : Str) : Option (Str × Str) :=
  match stripLit "pub fn ".toList s with
  | none => none
  | some s1 =>
    let name := s1.takeWhile isWordChar
    if name = [] then none
    else
      match stripLit "(&mut self".toList (s1.dropWhile isWordChar) with
      | none => none
      | some s2 => some ("pub fn ".toList ++ name ++ "(&self".toList, s2)

/-- Rules 2 to 4 matcher, for `self\.FIELD = Some\((.*?)\)` with replacement
`*self.FIELD.borrow_mut() = Some(\1)`, parameterised by the field name.
Returns the captured group, the replacement text, and the remainder. -/
def matchAssignCap (field : Str) (s : Str) : Option (Str × Str × Str) :=
  match stripLit ("self.".toList ++ field ++ " = Some(".toList) s with
  | none => none
  | some s1 =>
    match scanCapture s1 with
    | none => none
    | some (cap, rest) =>
      some (cap,
        "*self.".toList ++ field ++ ".borrow_mut() = Some(".toList ++ cap ++ [')'],
        rest)

/-- Rules 2 to 4 matcher with the capture dropped, in the driver interface. -/
def matchAssign (field : Str) (s : Str) : Option (Str × Str) :=
  (matchAssignCap field s).map (fun x => (x.2.1, x.2.2))

/-- Rules 5 to 7 matcher, for the literal pattern
`if let Some\(pb\) = &self\.FIELD` with literal replacement
`if let Some(pb) = self.FIELD.borrow().as_ref()`. -/
def matchIfLet (field : Str) (s : Str) : Option (Str × Str) :=
  match stripLit ("if let Some(pb) = &self.".toList ++ field) s with
  | none => none
  | some rest =>
    some ("if let Some(pb) = self.".toList ++ field ++ ".borrow().as_ref()".toList,
      rest)

/-- Fuel-indexed substitution driver: at each position try the matcher; on a
match emit the replacement and continue after the matched span (Python
`re.sub` does not rescan replacement text); otherwise emit one character and
advance.  Fuel equal to the length of the text suffices because every
matcher consumes at least one character. -/
def subFuel (m : Str → Option (Str × Str)) : Nat → Str → Str
  | 0, s => s
  | _ + 1, [] => []
  | fuel + 1, c :: cs =>
    match m (c :: cs) with
    | some (rep, rest) => rep ++ subFuel m fuel rest
    | none => c :: subFuel m fuel cs

/-- One `re.sub(pattern, replacement, content)` call: replace every
non-overlapping match of `m` in `s`, scanning left to right. -/
def reSub (m : Str → Option (Str × Str)) (s : Str) : Str :=
  subFuel m s.length s

/-- Line 12 of the script: `re.sub(r'pub fn (\w+)\(&mut self', ...)`. -/
def rule1 : Str → Str := reSub matchRule1

/-- Line 15: the `main_bar` assignment rewrite. -/
def rule2 : Str → Str := reSub (matchAssign "main_bar".toList)

/-- Line 16: the `content_bar` assignment rewrite. -/
def rule3 : Str → Str := reSub (matchAssign "content_bar".toList)

/-- Line 17: the `rename_bar` assignment rewrite. -/
def rule4 : Str → Str := reSub (matchAssign "rename_bar".toList)

/-- Line 20: the `main_bar` if-let rewrite. -/
def rule5 : Str → Str := reSub (matchIfLet "main_bar".toList)

/-- Line 21: the `content_bar` if-let rewrite. -/
def rule6 : Str → Str := reSub (matchIfLet "content_bar".toList)

/-- Line 22: the `rename_bar` if-let rewrite. -/
def rule7 : Str → Str := reSub (matchIfLet "rename_bar".toList)

/-- The whole substitution pipeline of the script, lines 12 to 22, applied
in the fixed source order to the in-memory `content`. -/
def fixContent (s : Str) : Str :=
  rule7 (rule6 (rule5 (rule4 (rule3 (rule2 (rule1 s))))))

/-- The capture group of the first (leftmost) match of an assignment rule in
a text, when a match exists: what `\1` denotes at that first match. -/
def firstAssignCapture (field : Str) : Str → Option Str
  | [] => none
  | c :: cs =>
    match matchAssignCap field (c :: cs) with
    | some (cap, _, _) => some cap
    | none => firstAssignCapture field cs

/-- Does the matcher succeed at some position of the text?  Zero occurrences
of a rule's pattern is `hasMatch m s = false`. -/
def hasMatch (m : Str → Option (Str × Str)) : Str → Bool
  | [] => false
  | c :: cs => (m (c :: cs)).isSome || hasMatch m cs

/-- The text has zero occurrences of every one of the seven patterns. -/
def noMatchAll (s : Str) : Bool :=
  !hasMatch matchRule1 s &&
  !hasMatch (matchAssign "main_bar".toList) s &&
  !hasMatch (matchAssign "content_bar".toList) s &&
  !hasMatch (matchAssign "rename_bar".toList) s &&
  !hasMatch (matchIfLet "main_bar".toList) s &&
  !hasMatch (matchIfLet "content_bar".toList) s &&
  !hasMatch (matchIfLet "rename_bar".toList) s

/-- Split a text at newline characters; the number of lines of a text is the
length of this list. -/
def splitOnNl : Str → List Str
  | [] => [[]]
  | c :: cs =>
    if c = '\n' then [] :: splitOnNl cs
    else match splitOnNl cs with
      | [] => [[c]]
      | l :: ls => (c :: l) :: ls

/-! Model of the effectful skeleton of the script (lines 8 to 28): open
`src/progress.rs` for reading, read all of it, run the pipeline, open the
same path for writing, write the result, print one confirmation line.  An
uncaught `OSError` aborts the interpreter before any later statement and
the process exits with a non-zero status. -/

/-- The one hard-coded path the script touches, in both `open` calls. -/
def targetPath : String := "src/progress.rs"

/-- The single line printed on success (line 28 of the script). -/
def confirmLine : String := "Fixed progress.rs methods"

/-- State of the world the script sees: the contents of the file at
`targetPath` (`none` when the file is absent), and whether the two `open`
calls can succeed. -/
structure World where
  contents : Option Str
  readable : Bool
  writable : Bool

/-- Observable outcome of one run of the script: the final contents of the
file at `targetPath`, the lines written to standard output, and the process
exit status. -/
structure Outcome where
  fileAfter : Option Str
  stdoutLines : List String
  exitCode : Nat

/-- One run of the script.  The read happens first; a read failure (missing
or unreadable file) raises before the file is ever opened for writing.  A
write-open failure raises after the transformation but before the print.
Only when both succeed is the confirmation line printed and the exit status
zero. -/
def runScript (w : World) : Outcome :=
  match w.contents, w.readable with
  | some content, true =>
    if w.writable then
      { fileAfter := some (fixContent content)
        stdoutLines := [confirmLine]
        exitCode := 0 }
    else
      { fileAfter := some content, stdoutLines := [], exitCode := 1 }
  | _, _ =>
    { fileAfter := w.contents, stdoutLines := [], exitCode := 1 }

/-- Fixture for the end-to-end scenario: a file containing each of the five
described patterns exactly once, plus lines that match no pattern. -/
def fixtureIn : Str :=
  ("use indicatif::ProgressBar;\n\npub fn start(&mut self, total: u64) \x7b\n    self.main_bar = Some(make_bar());\n    self.content_bar = Some(make_bar());\n    self.rename_bar = Some(make_bar());\n    if let Some(pb) = &self.rename_bar \x7b\n        pb.tick();\n    \x7d\n\x7d\n").toList

/-- Expected stored contents for the fixture: the five pattern occurrences
rewritten, every other line untouched. -/
def fixtureOut : Str :=
  ("use indicatif::ProgressBar;\n\npub fn start(&self, total: u64) \x7b\n    *self.main_bar.borrow_mut() = Some(make_bar());\n    *self.content_bar.borrow_mut() = Some(make_bar());\n    *self.rename_bar.borrow_mut() = Some(make_bar());\n    if let Some(pb) = self.rename_bar.borrow().as_ref() \x7b\n        pb.tick();\n    \x7d\n\x7d\n").toList

/-- Shape of a text containing a listed sequence of rule 1 occurrences:
each list entry is a gap followed by one occurrence
`pub fn NAME(&mut self`, and the whole ends with a final gap.  Any number
of occurrences of the pattern, at any positions, fits this shape. -/
def rule1Src : List (Str × Str) → Str → Str
  | [], tail => tail
  | (p, name) :: rest, tail =>
    p ++ ("pub fn ".toList ++ (name ++ ("(&mut self".toList ++ rule1Src rest tail)))

/-- The same text with every listed occurrence rewritten to
`pub fn NAME(&self`: the method names and all gaps are preserved verbatim.
-/
def rule1Dst : List (Str × Str) → Str → Str
  | [], tail => tail
  | (p, name) :: rest, tail =>
    p ++ ("pub fn ".toList ++ (name ++ ("(&self".toList ++ rule1Dst rest tail)))

/-- The listed occurrences are exactly the occurrences of the rule 1
pattern in `rule1Src segs tail`: every name is a nonempty run of word
characters (so each listed position really is a match), and no match of
rule 1 starts inside any gap or inside the final tail. -/
def rule1Clean : List (Str × Str) → Str → Bool
  | [], tail => !hasMatch matchRule1 tail
  | (p, name) :: rest, tail =>
    !name.isEmpty && name.all isWordChar &&
    (List.range p.length).all
      (fun i => (matchRule1 (List.drop i (rule1Src ((p, name) :: rest) tail))).isNone) &&
    rule1Clean rest tail

/-! Basic lemmas about the matcher building blocks. -/

theorem stripLit_sound {lit s r : Str} (h : stripLit lit s = some r) : s = lit ++ r := by
  induction lit generalizing s with
  | nil =>
    simp only [stripLit, Option.some.injEq] at h
    simp [h]
  | cons l ls ih =>
    cases s with
    | nil => simp [stripLit] at h
    | cons c cs =>
      by_cases hc : c = l
      · simp only [stripLit, if_pos hc] at h
        simp [hc, ih h]
      · simp [stripLit, hc] at h

theorem stripLit_append (lit r : Str) : stripLit lit (lit ++ r) = some r := by
  induction lit with
  | nil => rfl
  | cons l ls ih => simp [stripLit, ih]

theorem scanCapture_sound {s cap rest : Str} (h : scanCapture s = some (cap, rest)) :
    s = cap ++ ')' :: rest ∧ ')' ∉ cap ∧ '\n' ∉ cap := by
  induction s generalizing cap rest with
  | nil => simp [scanCapture] at h
  | cons c cs ih =>
    by_cases h1 : c = ')'
    · simp only [scanCapture, if_pos h1, Option.some.injEq, Prod.mk.injEq] at h
      obtain ⟨hc, hr⟩ := h
      subst hc; subst hr; subst h1
      simp
    · by_cases h2 : c = '\n'
      · simp [scanCapture, h1, h2] at h
      · simp only [scanCapture, if_neg h1, if_neg h2] at h
        cases hsc : scanCapture cs with
        | none => rw [hsc] at h; simp at h
        | some p =>
          obtain ⟨cap', rest'⟩ := p
          rw [hsc] at h
          simp only [Option.some.injEq, Prod.mk.injEq] at h
          obtain ⟨hc, hr⟩ := h
          obtain ⟨hs, hnp, hnn⟩ := ih hsc
          subst hc; subst hr
          refine ⟨by simp [hs], ?_, ?_⟩
          · simp only [List.mem_cons, not_or]
            exact ⟨fun hc => h1 hc.symm, hnp⟩
          · simp only [List.mem_cons, not_or]
            exact ⟨fun hc => h2 hc.symm, hnn⟩

theorem scanCapture_complete {E : Str} (S : Str) (h1 : ')' ∉ E) (h2 : '\n' ∉ E) :
    scanCapture (E ++ ')' :: S) = some (E, S) := by
  induction E with
  | nil => simp [scanCapture]
  | cons c cs ih =>
    have hc1 : ¬(c = ')') := fun hc => h1 (by simp [hc])
    have hc2 : ¬(c = '\n') := fun hc => h2 (by simp [hc])
    have h1' : ')' ∉ cs := fun hm => h1 (by simp [hm])
    have h2' : '\n' ∉ cs := fun hm => h2 (by simp [hm])
    simp [scanCapture, hc1, hc2, ih h1' h2']

theorem takeWhile_append_neg {p : Char → Bool} {a : Char} (ha : p a = false) :
    ∀ (x y : Str), (x ++ a :: y).takeWhile p = x.takeWhile p := by
  intro x y
  induction x with
  | nil => simp [List.takeWhile, ha]
  | cons c cs ih =>
    cases hp : p c <;> simp [List.takeWhile, hp, ih]

theorem dropWhile_append_neg {p : Char → Bool} {a : Char} (ha : p a = false) :
    ∀ (x y : Str), (x ++ a :: y).dropWhile p = x.dropWhile p ++ a :: y := by
  intro x y
  induction x with
  | nil => simp [List.dropWhile, ha]
  | cons c cs ih =>
    cases hp : p c <;> simp [List.dropWhile, hp, ih]

theorem takeWhile_of_all {p : Char → Bool} :
    ∀ {x : Str}, (∀ c ∈ x, p c = true) → x.takeWhile p = x := by
  intro x h
  induction x with
  | nil => rfl
  | cons c cs ih =>
    have hc : p c = true := h c (by simp)
    simp [List.takeWhile, hc, ih fun d hd => h d (by simp [hd])]

theorem dropWhile_of_all {p : Char → Bool} :
    ∀ {x : Str}, (∀ c ∈ x, p c = true) → x.dropWhile p = [] := by
  intro x h
  induction x with
  | nil => rfl
  | cons c cs ih =>
    have hc : p c = true := h c (by simp)
    simp [List.dropWhile, hc, ih fun d hd => h d (by simp [hd])]

/-! Soundness of the three matcher families: every successful match
decomposes the input into the matched span followed by the remainder, and
determines the replacement. -/

theorem matchRule1_sound {s rep rest : Str} (h : matchRule1 s = some (rep, rest)) :
    ∃ name, name ≠ [] ∧ (∀ c ∈ name, isWordChar c = true) ∧
      s = "pub fn ".toList ++ name ++ "(&mut self".toList ++ rest ∧
      rep = "pub fn ".toList ++ name ++ "(&self".toList := by
  unfold matchRule1 at h
  cases h1 : stripLit "pub fn ".toList s with
  | none => rw [h1] at h; simp at h
  | some s1 =>
    rw [h1] at h
    simp only at h
    by_cases hn : s1.takeWhile isWordChar = []
    · rw [if_pos hn] at h; simp at h
    · rw [if_neg hn] at h
      cases h2 : stripLit "(&mut self".toList (s1.dropWhile isWordChar) with
      | none => rw [h2] at h; simp at h
      | some s2 =>
        rw [h2] at h
        simp only [Option.some.injEq, Prod.mk.injEq] at h
        obtain ⟨hrep, hrest⟩ := h
        have hs : s = "pub fn ".toList ++ s1 := stripLit_sound h1
        have hs1 : s1 = s1.takeWhile isWordChar ++ s1.dropWhile isWordChar :=
          (List.takeWhile_append_dropWhile isWordChar s1).symm
        have hd : s1.dropWhile isWordChar = "(&mut self".toList ++ rest := by
          rw [← hrest]; exact stripLit_sound h2
        have hs1' : s1 = s1.takeWhile isWordChar ++ ("(&mut self".toList ++ rest) := by
          conv_lhs => rw [hs1, hd]
        refine ⟨s1.takeWhile isWordChar, hn, fun c hc => List.mem_takeWhile_imp hc, ?_, hrep.symm⟩
        rw [hs]
        conv_lhs => rw [hs1']
        simp [List.append_assoc]

theorem matchAssignCap_sound {f s cap rep rest : Str}
    (h : matchAssignCap f s = some (cap, rep, rest)) :
    s = ("self.".toList ++ f ++ " = Some(".toList) ++ cap ++ ')' :: rest ∧
    rep = "*self.".toList ++ f ++ ".borrow_mut() = Some(".toList ++ cap ++ [')'] ∧
    ')' ∉ cap ∧ '\n' ∉ cap := by
  unfold matchAssignCap at h
  cases h1 : stripLit ("self.".toList ++ f ++ " = Some(".toList) s with
  | none => rw [h1] at h; simp at h
  | some s1 =>
    rw [h1] at h
    simp only at h
    cases h2 : scanCapture s1 with
    | none => rw [h2] at h; simp at h
    | some p =>
      obtain ⟨cap', rest'⟩ := p
      rw [h2] at h
      simp only [Option.some.injEq, Prod.mk.injEq] at h
      obtain ⟨hc, hrep, hrest⟩ := h
      subst hc; subst hrest
      obtain ⟨hs1, hp, hn⟩ := scanCapture_sound h2
      refine ⟨?_, hrep.symm, hp, hn⟩
      rw [stripLit_sound h1, hs1]
      simp

theorem matchIfLet_sound {f s rep rest : Str} (h : matchIfLet f s = some (rep, rest)) :
    s = ("if let Some(pb) = &self.".toList ++ f) ++ rest ∧
    rep = "if let Some(pb) = self.".toList ++ f ++ ".borrow().as_ref()".toList := by
  unfold matchIfLet at h
  cases h1 : stripLit ("if let Some(pb) = &self.".toList ++ f) s with
  | none => rw [h1] at h; simp at h
  | some r =>
    rw [h1] at h
    simp only at h
    simp only [Option.some.injEq, Prod.mk.injEq] at h
    obtain ⟨hrep, hrest⟩ := h
    subst hrest
    exact ⟨stripLit_sound h1, hrep.symm⟩

/-- The matcher consumes at least one character on every successful match:
the remainder is strictly shorter than the scanned text. -/
def Consumes (m : Str → Option (Str × Str)) : Prop :=
  ∀ s rep rest, m s = some (rep, rest) → rest.length < s.length

theorem consumes_matchRule1 : Consumes matchRule1 := by
  intro s rep rest h
  obtain ⟨name, _, _, hs, _⟩ := matchRule1_sound h
  subst hs
  have e1 : ("pub fn ".toList).length = 7 := rfl
  have e2 : ("(&mut self".toList).length = 10 := rfl
  simp only [List.length_append, e1, e2]
  omega

theorem consumes_matchAssign (f : Str) : Consumes (matchAssign f) := by
  intro s rep rest h
  unfold matchAssign at h
  cases hc : matchAssignCap f s with
  | none => rw [hc] at h; simp at h
  | some t =>
    obtain ⟨cap, rep', rest'⟩ := t
    rw [hc] at h
    simp at h
    obtain ⟨h1, h2⟩ := h
    subst h2
    obtain ⟨hs, _, _, _⟩ := matchAssignCap_sound hc
    subst hs
    have e1 : ("self.".toList).length = 5 := rfl
    simp only [List.length_append, List.length_cons, e1]
    omega

theorem consumes_matchIfLet (f : Str) : Consumes (matchIfLet f) := by
  intro s rep rest h
  obtain ⟨hs, _⟩ := matchIfLet_sound h
  subst hs
  have e1 : ("if let Some(pb) = &self.".toList).length = 24 := rfl
  simp only [List.length_append, e1]
  omega

theorem consumes_nil_none {m : Str → Option (Str × Str)} (hm : Consumes m) : m [] = none := by
  cases h : m [] with
  | none => rfl
  | some p => exact absurd (hm [] p.1 p.2 (by rw [h])) (by simp)

/-! Lemmas about the substitution driver. -/

theorem subFuel_succ {m : Str → Option (Str × Str)} (hm : Consumes m) :
    ∀ fuel (s : Str), s.length ≤ fuel → subFuel m (fuel + 1) s = subFuel m fuel s := by
  intro fuel
  induction fuel with
  | zero =>
    intro s h
    have : s = [] := List.length_eq_zero.mp (Nat.le_zero.mp h)
    subst this; rfl
  | succ f ih =>
    intro s h
    cases s with
    | nil => rfl
    | cons c cs =>
      show (match m (c :: cs) with
        | some (rep, rest) => rep ++ subFuel m (f + 1) rest
        | none => c :: subFuel m (f + 1) cs) = (match m (c :: cs) with
        | some (rep, rest) => rep ++ subFuel m f rest
        | none => c :: subFuel m f cs)
      cases hmc : m (c :: cs) with
      | none =>
        simp only
        rw [ih cs (by simpa using Nat.le_of_succ_le_succ h)]
      | some p =>
        obtain ⟨rep, rest⟩ := p
        simp only
        rw [ih rest (by
          have := hm _ _ _ hmc
          simp at this h
          omega)]

theorem subFuel_of_le {m : Str → Option (Str × Str)} (hm : Consumes m) :
    ∀ fuel (s : Str), s.length ≤ fuel → subFuel m fuel s = reSub m s := by
  intro fuel
  induction fuel with
  | zero =>
    intro s h
    have : s = [] := List.length_eq_zero.mp (Nat.le_zero.mp h)
    subst this; rfl
  | succ f ih =>
    intro s h
    rcases Nat.lt_or_ge f s.length with hlt | hle
    · have : s.length = f + 1 := by omega
      rw [reSub, this]
    · rw [subFuel_succ hm f s hle, ih s hle]

theorem reSub_nil {m : Str → Option (Str × Str)} : reSub m [] = [] := rfl

theorem reSub_cons_none {m : Str → Option (Str × Str)} {c : Char} {cs : Str}
    (h : m (c :: cs) = none) : reSub m (c :: cs) = c :: reSub m cs := by
  show subFuel m (c :: cs).length (c :: cs) = _
  simp only [List.length_cons, subFuel, h]
  rfl

theorem reSub_match {m : Str → Option (Str × Str)} {s rep rest : Str} (hm : Consumes m)
    (h : m s = some (rep, rest)) : reSub m s = rep ++ reSub m rest := by
  cases s with
  | nil => exact absurd (hm _ _ _ h) (by simp)
  | cons c cs =>
    show subFuel m (c :: cs).length (c :: cs) = _
    simp only [List.length_cons, subFuel, h]
    rw [subFuel_of_le hm cs.length rest (by
      have := hm _ _ _ h
      simp at this
      omega)]

/-! Lemmas about occurrence testing. -/

theorem hasMatch_cons_false {m : Str → Option (Str × Str)} {c : Char} {cs : Str}
    (h : hasMatch m (c :: cs) = false) : m (c :: cs) = none ∧ hasMatch m cs = false := by
  simp only [hasMatch, Bool.or_eq_false_iff] at h
  exact ⟨Option.not_isSome_iff_eq_none.mp (by simp [h.1]), h.2⟩

theorem reSub_id_of_no_match {m : Str → Option (Str × Str)} :
    ∀ s : Str, hasMatch m s = false → reSub m s = s := by
  intro s
  induction s with
  | nil => intro _; rfl
  | cons c cs ih =>
    intro h
    obtain ⟨h1, h2⟩ := hasMatch_cons_false h
    rw [reSub_cons_none h1, ih h2]

theorem reSub_append_none {m : Str → Option (Str × Str)} :
    ∀ (p t : Str), (∀ i, i < p.length → m (List.drop i (p ++ t)) = none) →
      reSub m (p ++ t) = p ++ reSub m t := by
  intro p
  induction p with
  | nil => intro t _; rfl
  | cons c cs ih =>
    intro t h
    have h0 : m (c :: (cs ++ t)) = none := by
      have := h 0 (by simp)
      simpa using this
    have harg : ∀ i, i < cs.length → m (List.drop i (cs ++ t)) = none := by
      intro i hi
      have := h (i + 1) (by simp; omega)
      simpa using this
    rw [List.cons_append, reSub_cons_none h0, ih t harg]
    rfl

/-! Identity of the pipeline on texts with zero occurrences. -/

theorem noMatchAll_parts {s : Str} (h : noMatchAll s = true) :
    hasMatch matchRule1 s = false ∧
    hasMatch (matchAssign "main_bar".toList) s = false ∧
    hasMatch (matchAssign "content_bar".toList) s = false ∧
    hasMatch (matchAssign "rename_bar".toList) s = false ∧
    hasMatch (matchIfLet "main_bar".toList) s = false ∧
    hasMatch (matchIfLet "content_bar".toList) s = false ∧
    hasMatch (matchIfLet "rename_bar".toList) s = false := by
  simp only [noMatchAll, Bool.and_eq_true, Bool.not_eq_true'] at h
  exact ⟨h.1.1.1.1.1.1, h.1.1.1.1.1.2, h.1.1.1.1.2, h.1.1.1.2, h.1.1.2, h.1.2, h.2⟩

theorem fixContent_id_of_noMatchAll {s : Str} (h : noMatchAll s = true) : fixContent s = s := by
  obtain ⟨h1, h2, h3, h4, h5, h6, h7⟩ := noMatchAll_parts h
  show rule7 (rule6 (rule5 (rule4 (rule3 (rule2 (rule1 s)))))) = s
  have e1 : rule1 s = s := reSub_id_of_no_match s h1
  have e2 : rule2 s = s := reSub_id_of_no_match s h2
  have e3 : rule3 s = s := reSub_id_of_no_match s h3
  have e4 : rule4 s = s := reSub_id_of_no_match s h4
  have e5 : rule5 s = s := reSub_id_of_no_match s h5
  have e6 : rule6 s = s := reSub_id_of_no_match s h6
  have e7 : rule7 s = s := reSub_id_of_no_match s h7
  rw [e1, e2, e3, e4, e5, e6, e7]

/-! Head-position match lemmas, describing exactly what each rule does at an
occurrence of its pattern. -/

theorem matchRule1_at_head (name rest : Str) (h1 : name ≠ [])
    (h2 : ∀ c ∈ name, isWordChar c = true) :
    matchRule1 ("pub fn ".toList ++ (name ++ ("(&mut self".toList ++ rest))) =
      some ("pub fn ".toList ++ name ++ "(&self".toList, rest) := by
  unfold matchRule1
  rw [stripLit_append]
  have hsplit : "(&mut self".toList ++ rest = '(' :: ("&mut self".toList ++ rest) := rfl
  have hpar : isWordChar '(' = false := rfl
  have htw : (name ++ ("(&mut self".toList ++ rest)).takeWhile isWordChar = name := by
    rw [hsplit, takeWhile_append_neg hpar name ("&mut self".toList ++ rest), takeWhile_of_all h2]
  have hdw : (name ++ ("(&mut self".toList ++ rest)).dropWhile isWordChar =
      "(&mut self".toList ++ rest := by
    rw [hsplit, dropWhile_append_neg hpar name ("&mut self".toList ++ rest), dropWhile_of_all h2]
    rfl
  simp only [htw, hdw, if_neg h1, stripLit_append]

theorem matchAssignCap_at_head (f E S : Str) (h1 : ')' ∉ E) (h2 : '\n' ∉ E) :
    matchAssignCap f (("self.".toList ++ f ++ " = Some(".toList) ++ (E ++ ')' :: S)) =
      some (E, "*self.".toList ++ f ++ ".borrow_mut() = Some(".toList ++ E ++ [')'], S) := by
  unfold matchAssignCap
  rw [stripLit_append]
  simp only
  rw [scanCapture_complete S h1 h2]

theorem firstAssignCapture_at_head {f s cap rep rest : Str}
    (hne : s ≠ []) (h : matchAssignCap f s = some (cap, rep, rest)) :
    firstAssignCapture f s = some cap := by
  cases s with
  | nil => exact absurd rfl hne
  | cons c cs =>
    show (match matchAssignCap f (c :: cs) with
      | some (cap, _, _) => some cap
      | none => firstAssignCapture f cs) = some cap
    rw [h]

/-! Newline locality: no pattern can match across a newline, every
replacement is newline-free, so each rule acts independently on each line.
-/

theorem stripLit_nl {lit : Str} (hlit : '\n' ∉ lit) :
    ∀ x y : Str, stripLit lit (x ++ '\n' :: y) =
      (stripLit lit x).map (fun r => r ++ '\n' :: y) := by
  induction lit with
  | nil => intro x y; rfl
  | cons l ls ih =>
    intro x y
    cases x with
    | nil =>
      have hl : ¬('\n' = l) := fun hc => hlit (by simp [← hc])
      simp [stripLit, hl]
    | cons c cs =>
      have hls : '\n' ∉ ls := fun hm => hlit (by simp [hm])
      by_cases hc : c = l
      · simp [stripLit, hc, ih hls cs y]
      · simp [stripLit, hc]

theorem scanCapture_nl : ∀ x y : Str,
    scanCapture (x ++ '\n' :: y) =
      (scanCapture x).map (fun p => (p.1, p.2 ++ '\n' :: y)) := by
  intro x y
  induction x with
  | nil => simp [scanCapture]
  | cons c cs ih =>
    by_cases h1 : c = ')'
    · simp [scanCapture, h1]
    · by_cases h2 : c = '\n'
      · simp [scanCapture, h1, h2]
      · simp only [List.cons_append, scanCapture, if_neg h1, if_neg h2, List.append_eq]
        rw [ih]
        cases hsc : scanCapture cs with
        | none => simp
        | some p => cases p; simp

/-- The properties of a matcher that make one substitution pass act line by
line: it consumes at least one character, the remainder is a suffix of the
input, the replacement is newline-free, and matching stops at a newline. -/
structure LineSafe (m : Str → Option (Str × Str)) : Prop where
  consumes : Consumes m
  decomp : ∀ s rep rest, m s = some (rep, rest) → ∃ pre, s = pre ++ rest
  repNl : ∀ s rep rest, m s = some (rep, rest) → '\n' ∉ rep
  shift : ∀ x y, m (x ++ '\n' :: y) = (m x).map (fun p => (p.1, p.2 ++ '\n' :: y))

theorem matchRule1_shift (x y : Str) :
    matchRule1 (x ++ '\n' :: y) = (matchRule1 x).map (fun p => (p.1, p.2 ++ '\n' :: y)) := by
  unfold matchRule1
  rw [stripLit_nl (by decide) x y]
  cases hx : stripLit "pub fn ".toList x with
  | none => rfl
  | some s1 =>
    have hred : (some s1).map (fun r => r ++ '\n' :: y) = some (s1 ++ '\n' :: y) := rfl
    rw [hred]
    simp only
    have htw : (s1 ++ '\n' :: y).takeWhile isWordChar = s1.takeWhile isWordChar :=
      takeWhile_append_neg (by decide) s1 y
    have hdw : (s1 ++ '\n' :: y).dropWhile isWordChar = s1.dropWhile isWordChar ++ '\n' :: y :=
      dropWhile_append_neg (by decide) s1 y
    rw [htw, hdw, stripLit_nl (by decide) (s1.dropWhile isWordChar) y]
    by_cases hn : s1.takeWhile isWordChar = []
    · simp [hn]
    · rw [if_neg hn, if_neg hn]
      cases hd : stripLit "(&mut self".toList (s1.dropWhile isWordChar) with
      | none => simp
      | some s2 => simp

theorem matchAssignCap_shift (f : Str) (hf : '\n' ∉ f) (x y : Str) :
    matchAssignCap f (x ++ '\n' :: y) =
      (matchAssignCap f x).map (fun t => (t.1, t.2.1, t.2.2 ++ '\n' :: y)) := by
  unfold matchAssignCap
  have hlit : '\n' ∉ "self.".toList ++ f ++ " = Some(".toList := by
    simp only [List.mem_append, not_or]
    exact ⟨⟨by decide, hf⟩, by decide⟩
  rw [stripLit_nl hlit x y]
  cases hx : stripLit ("self.".toList ++ f ++ " = Some(".toList) x with
  | none => rfl
  | some s1 =>
    have hred : (some s1).map (fun r => r ++ '\n' :: y) = some (s1 ++ '\n' :: y) := rfl
    rw [hred]
    simp only
    rw [scanCapture_nl s1 y]
    cases hsc : scanCapture s1 with
    | none => simp
    | some p => cases p; simp

theorem matchAssign_shift (f : Str) (hf : '\n' ∉ f) (x y : Str) :
    matchAssign f (x ++ '\n' :: y) =
      (matchAssign f x).map (fun p => (p.1, p.2 ++ '\n' :: y)) := by
  unfold matchAssign
  rw [matchAssignCap_shift f hf x y]
  cases hx : matchAssignCap f x with
  | none => rfl
  | some t => cases t; rfl

theorem matchIfLet_shift (f : Str) (hf : '\n' ∉ f) (x y : Str) :
    matchIfLet f (x ++ '\n' :: y) =
      (matchIfLet f x).map (fun p => (p.1, p.2 ++ '\n' :: y)) := by
  unfold matchIfLet
  have hlit : '\n' ∉ "if let Some(pb) = &self.".toList ++ f := by
    simp only [List.mem_append, not_or]
    exact ⟨by decide, hf⟩
  rw [stripLit_nl hlit x y]
  cases hx : stripLit ("if let Some(pb) = &self.".toList ++ f) x with
  | none => rfl
  | some r => rfl

theorem lineSafe_matchRule1 : LineSafe matchRule1 := by
  refine ⟨consumes_matchRule1, ?_, ?_, matchRule1_shift⟩
  · intro s rep rest h
    obtain ⟨name, _, _, hs, _⟩ := matchRule1_sound h
    exact ⟨"pub fn ".toList ++ name ++ "(&mut self".toList, hs⟩
  · intro s rep rest h
    obtain ⟨name, _, hw, _, hrep⟩ := matchRule1_sound h
    rw [hrep]
    intro hm
    rcases List.mem_append.mp hm with hm1 | hm2
    · rcases List.mem_append.mp hm1 with ha | hb
      · exact absurd ha (by decide)
      · have := hw '\n' hb
        simp [isWordChar] at this
    · exact absurd hm2 (by decide)

theorem lineSafe_matchAssign (f : Str) (hf : '\n' ∉ f) : LineSafe (matchAssign f) := by
  refine ⟨consumes_matchAssign f, ?_, ?_, matchAssign_shift f hf⟩
  · intro s rep rest h
    unfold matchAssign at h
    cases hc : matchAssignCap f s with
    | none => rw [hc] at h; simp at h
    | some t =>
      obtain ⟨cap, rep', rest'⟩ := t
      rw [hc] at h
      simp at h
      obtain ⟨hs, _, _, _⟩ := matchAssignCap_sound hc
      exact ⟨("self.".toList ++ f ++ " = Some(".toList) ++ cap ++ [')'], by
        rw [hs, h.2]; simp⟩
  · intro s rep rest h
    unfold matchAssign at h
    cases hc : matchAssignCap f s with
    | none => rw [hc] at h; simp at h
    | some t =>
      obtain ⟨cap, rep', rest'⟩ := t
      rw [hc] at h
      simp at h
      obtain ⟨_, hrep, _, hnl⟩ := matchAssignCap_sound hc
      rw [← h.1, hrep]
      simp only [List.mem_append, not_or]
      exact ⟨⟨⟨⟨by decide, hf⟩, by decide⟩, hnl⟩, by decide⟩

theorem lineSafe_matchIfLet (f : Str) (hf : '\n' ∉ f) : LineSafe (matchIfLet f) := by
  refine ⟨consumes_matchIfLet f, ?_, ?_, matchIfLet_shift f hf⟩
  · intro s rep rest h
    obtain ⟨hs, _⟩ := matchIfLet_sound h
    exact ⟨"if let Some(pb) = &self.".toList ++ f, hs⟩
  · intro s rep rest h
    obtain ⟨_, hrep⟩ := matchIfLet_sound h
    rw [hrep]
    simp only [List.mem_append, not_or]
    exact ⟨⟨by decide, hf⟩, by decide⟩

theorem reSub_nl_split_fuel {m : Str → Option (Str × Str)} (hm : LineSafe m) :
    ∀ n (A B : Str), A.length ≤ n →
      reSub m (A ++ '\n' :: B) = reSub m A ++ '\n' :: reSub m B := by
  intro n
  induction n with
  | zero =>
    intro A B h
    have hA : A = [] := List.length_eq_zero.mp (Nat.le_zero.mp h)
    subst hA
    have h0 : m ('\n' :: B) = none := by
      have := hm.shift [] B
      rw [consumes_nil_none hm.consumes] at this
      simpa using this
    simpa using reSub_cons_none h0
  | succ k ih =>
    intro A B h
    cases A with
    | nil =>
      have h0 : m ('\n' :: B) = none := by
        have := hm.shift [] B
        rw [consumes_nil_none hm.consumes] at this
        simpa using this
      simpa using reSub_cons_none h0
    | cons c cs =>
      have hshift := hm.shift (c :: cs) B
      cases hmc : m (c :: cs) with
      | none =>
        rw [hmc] at hshift
        simp only [Option.map_none'] at hshift
        have hL : reSub m ((c :: cs) ++ '\n' :: B) = c :: reSub m (cs ++ '\n' :: B) := by
          rw [List.cons_append]
          exact reSub_cons_none (by rw [← List.cons_append]; exact hshift)
        rw [hL, ih cs B (by simpa using Nat.le_of_succ_le_succ h),
          reSub_cons_none hmc]
        rfl
      | some p =>
        obtain ⟨rep, rest⟩ := p
        rw [hmc] at hshift
        simp only [Option.map_some'] at hshift
        rw [reSub_match hm.consumes hshift,
          ih rest B (by
            have := hm.consumes _ _ _ hmc
            simp only [List.length_cons] at this h
            omega),
          reSub_match hm.consumes hmc]
        simp [List.append_assoc]

theorem reSub_nl_split {m : Str → Option (Str × Str)} (hm : LineSafe m) (A B : Str) :
    reSub m (A ++ '\n' :: B) = reSub m A ++ '\n' :: reSub m B :=
  reSub_nl_split_fuel hm A.length A B le_rfl

theorem reSub_no_nl_fuel {m : Str → Option (Str × Str)} (hm : LineSafe m) :
    ∀ n (s : Str), s.length ≤ n → '\n' ∉ s → '\n' ∉ reSub m s := by
  intro n
  induction n with
  | zero =>
    intro s h hs
    have : s = [] := List.length_eq_zero.mp (Nat.le_zero.mp h)
    subst this
    rw [reSub_nil]
    simp
  | succ k ih =>
    intro s h hs
    cases s with
    | nil =>
      rw [reSub_nil]
      simp
    | cons c cs =>
      cases hmc : m (c :: cs) with
      | none =>
        rw [reSub_cons_none hmc]
        intro hmem
        rcases List.mem_cons.mp hmem with h1 | h2
        · exact hs (List.mem_cons.mpr (Or.inl h1))
        · exact ih cs (by simpa using Nat.le_of_succ_le_succ h)
            (fun hc => hs (List.mem_cons.mpr (Or.inr hc))) h2
      | some p =>
        obtain ⟨rep, rest⟩ := p
        rw [reSub_match hm.consumes hmc]
        intro hmem
        rcases List.mem_append.mp hmem with h1 | h2
        · exact hm.repNl _ _ _ hmc h1
        · obtain ⟨pre, hpre⟩ := hm.decomp _ _ _ hmc
          have hrest : '\n' ∉ rest := fun hc => hs (by rw [hpre]; simp [hc])
          exact ih rest (by
            have := hm.consumes _ _ _ hmc
            simp only [List.length_cons] at this h
            omega) hrest h2

theorem reSub_no_nl {m : Str → Option (Str × Str)} (hm : LineSafe m) {s : Str}
    (hs : '\n' ∉ s) : '\n' ∉ reSub m s :=
  reSub_no_nl_fuel hm s.length s le_rfl hs

theorem splitOnNl_no_nl {s : Str} (h : '\n' ∉ s) : splitOnNl s = [s] := by
  induction s with
  | nil => rfl
  | cons c cs ih =>
    have hc : ¬(c = '\n') := fun hc => h (by simp [hc])
    have hcs : '\n' ∉ cs := fun hm => h (by simp [hm])
    simp [splitOnNl, hc, ih hcs]

theorem splitOnNl_append {A : Str} (B : Str) (h : '\n' ∉ A) :
    splitOnNl (A ++ '\n' :: B) = A :: splitOnNl B := by
  induction A with
  | nil => simp [splitOnNl]
  | cons c cs ih =>
    have hc : ¬(c = '\n') := fun hc => h (by simp [hc])
    have hcs : '\n' ∉ cs := fun hm => h (by simp [hm])
    simp [splitOnNl, hc, ih hcs]

theorem exists_first_nl {s : Str} (h : '\n' ∈ s) :
    ∃ A B, s = A ++ '\n' :: B ∧ '\n' ∉ A := by
  induction s with
  | nil => simp at h
  | cons c cs ih =>
    by_cases hc : c = '\n'
    · exact ⟨[], cs, by simp [hc], by simp⟩
    · have hcs : '\n' ∈ cs := by
        rcases List.mem_cons.mp h with h1 | h2
        · exact absurd h1.symm hc
        · exact h2
      obtain ⟨A, B, hs2, hA⟩ := ih hcs
      refine ⟨c :: A, B, by simp [hs2], ?_⟩
      intro hm
      rcases List.mem_cons.mp hm with h1 | h2
      · exact hc h1.symm
      · exact hA h2

theorem splitOnNl_reSub_fuel {m : Str → Option (Str × Str)} (hm : LineSafe m) :
    ∀ n (s : Str), s.length ≤ n →
      splitOnNl (reSub m s) = (splitOnNl s).map (reSub m) := by
  intro n
  induction n with
  | zero =>
    intro s h
    have : s = [] := List.length_eq_zero.mp (Nat.le_zero.mp h)
    subst this
    rfl
  | succ k ih =>
    intro s h
    by_cases hn : '\n' ∈ s
    · obtain ⟨A, B, hs, hA⟩ := exists_first_nl hn
      subst hs
      rw [reSub_nl_split hm, splitOnNl_append B hA,
        splitOnNl_append (reSub m B) (reSub_no_nl hm hA),
        ih B (by simp at h; omega)]
      rfl
    · rw [splitOnNl_no_nl hn, splitOnNl_no_nl (reSub_no_nl hm hn)]
      rfl

theorem splitOnNl_reSub {m : Str → Option (Str × Str)} (hm : LineSafe m) (s : Str) :
    splitOnNl (reSub m s) = (splitOnNl s).map (reSub m) :=
  splitOnNl_reSub_fuel hm s.length s le_rfl

theorem splitOnNl_fixContent (t : Str) :
    splitOnNl (fixContent t) = (splitOnNl t).map fixContent := by
  simp only [fixContent, rule1, rule2, rule3, rule4, rule5, rule6, rule7]
  rw [splitOnNl_reSub (lineSafe_matchIfLet "rename_bar".toList (by decide)),
    splitOnNl_reSub (lineSafe_matchIfLet "content_bar".toList (by decide)),
    splitOnNl_reSub (lineSafe_matchIfLet "main_bar".toList (by decide)),
    splitOnNl_reSub (lineSafe_matchAssign "rename_bar".toList (by decide)),
    splitOnNl_reSub (lineSafe_matchAssign "content_bar".toList (by decide)),
    splitOnNl_reSub (lineSafe_matchAssign "main_bar".toList (by decide)),
    splitOnNl_reSub lineSafe_matchRule1]
  simp only [List.map_map]
  congr 1

/-! Claim theorems. -/

/-- C1 (counterexample): the pipeline is not idempotent for every input
text.  For the text `self.main_bar = Some(self.main_bar = Some(X)Y)`, the
first pass moves the inner assignment text into the replacement of the
outer one (the lazy capture stops at the first close parenthesis), and the
second pass rewrites that inner assignment again, so applying the pipeline
twice differs from applying it once. -/
theorem c1_not_idempotent_cex :
    fixContent (fixContent "self.main_bar = Some(self.main_bar = Some(X)Y)".toList) ≠
      fixContent "self.main_bar = Some(self.main_bar = Some(X)Y)".toList := by
  decide

/-- C1 (amended): the pipeline is idempotent on every input text whose
first-pass output contains no occurrence of any of the seven patterns;
this is what holds of ordinary inputs such as the target source file, but
it is not true of all texts, as the counterexample shows. -/
theorem c1_idempotent_on_clean (t : Str) (h : noMatchAll (fixContent t) = true) :
    fixContent (fixContent t) = fixContent t :=
  fixContent_id_of_noMatchAll h

/-- C1 (witness): a concrete text satisfying the hypothesis of the amended
idempotence theorem. -/
theorem c1_idempotent_on_clean_witness :
    noMatchAll (fixContent "pub fn f(&mut self)".toList) = true ∧
    fixContent (fixContent "pub fn f(&mut self)".toList) =
      fixContent "pub fn f(&mut self)".toList :=
  ⟨by decide, c1_idempotent_on_clean "pub fn f(&mut self)".toList (by decide)⟩

/-- C2 (counterexample): the capture group of rule 2 does not capture the
assigned expression verbatim when the expression contains a close
parenthesis.  For the assignment `self.main_bar = Some(Some(f(a), g(b)))`,
whose wrapped expression is the example `Some(f(a), g(b))` named in the
claim, the capture group of the first match is the proper prefix
`Some(f(a`, cut at the first close parenthesis by the lazy `(.*?)`. -/
theorem c2_capture_not_verbatim_cex :
    firstAssignCapture "main_bar".toList
        "self.main_bar = Some(Some(f(a), g(b)))".toList = some "Some(f(a".toList ∧
    "Some(f(a".toList ≠ "Some(f(a), g(b))".toList := by
  constructor
  · decide
  · decide

/-- C2 (amended): for a text beginning with the assignment
`self.main_bar = Some(EXPR)` where EXPR contains no close parenthesis and
no newline, rule 2 rewrites the assignment to
`*self.main_bar.borrow_mut() = Some(EXPR)` with EXPR captured verbatim by
the capture group, and continues independently on the remainder of the
text. -/
theorem c2_assign_rewrite (E S : Str) (h1 : ')' ∉ E) (h2 : '\n' ∉ E) :
    rule2 ("self.main_bar = Some(".toList ++ (E ++ ')' :: S)) =
      "*self.main_bar.borrow_mut() = Some(".toList ++ E ++ ')' :: rule2 S ∧
    firstAssignCapture "main_bar".toList
      ("self.main_bar = Some(".toList ++ (E ++ ')' :: S)) = some E := by
  have hpre : "self.main_bar = Some(".toList =
      "self.".toList ++ "main_bar".toList ++ " = Some(".toList := by decide
  rw [hpre]
  have hmc := matchAssignCap_at_head "main_bar".toList E S h1 h2
  constructor
  · have hm : matchAssign "main_bar".toList
        (("self.".toList ++ "main_bar".toList ++ " = Some(".toList) ++ (E ++ ')' :: S)) =
        some ("*self.".toList ++ "main_bar".toList ++ ".borrow_mut() = Some(".toList ++
          E ++ [')'], S) := by
      unfold matchAssign
      rw [hmc]
      rfl
    show reSub (matchAssign "main_bar".toList) _ = _
    rw [reSub_match (consumes_matchAssign "main_bar".toList) hm]
    have hrep : "*self.".toList ++ "main_bar".toList ++ ".borrow_mut() = Some(".toList =
        "*self.main_bar.borrow_mut() = Some(".toList := by decide
    rw [hrep]
    simp [List.append_assoc]
    rfl
  · refine firstAssignCapture_at_head ?_ hmc
    intro hnil
    have := congrArg List.length hnil
    simp [List.length_append] at this

/-- C2 (witness): a concrete instantiation of the amended rewrite theorem,
with EXPR equal to `bar` and the remainder equal to `;`. -/
theorem c2_assign_rewrite_witness :
    ')' ∉ "bar".toList ∧ '\n' ∉ "bar".toList ∧
    (rule2 ("self.main_bar = Some(".toList ++ ("bar".toList ++ ')' :: ";".toList)) =
      "*self.main_bar.borrow_mut() = Some(".toList ++ "bar".toList ++
        ')' :: rule2 ";".toList ∧
    firstAssignCapture "main_bar".toList
      ("self.main_bar = Some(".toList ++ ("bar".toList ++ ')' :: ";".toList)) =
      some "bar".toList) :=
  ⟨by decide, by decide,
    c2_assign_rewrite "bar".toList ";".toList (by decide) (by decide)⟩

/-- C3: on any text with zero occurrences of every one of the seven
patterns, the full substitution pipeline is the identity function. -/
theorem c3_pipeline_identity (t : Str) (h : noMatchAll t = true) : fixContent t = t :=
  fixContent_id_of_noMatchAll h

/-- C3 (witness): a concrete text with zero occurrences of every pattern,
on which the pipeline is the identity. -/
theorem c3_pipeline_identity_witness :
    noMatchAll "use std::fs;\nfn helper(x: u64) -> u64".toList = true ∧
    fixContent "use std::fs;\nfn helper(x: u64) -> u64".toList =
      "use std::fs;\nfn helper(x: u64) -> u64".toList :=
  ⟨by decide, c3_pipeline_identity "use std::fs;\nfn helper(x: u64) -> u64".toList (by decide)⟩

/-- C4: rule 1 rewrites every occurrence of `pub fn NAME(&mut self` to
`pub fn NAME(&self`.  The text is decomposed as any number of occurrences
(each a nonempty word-character NAME) interleaved with arbitrary gaps in
which no match of the pattern starts; the output is the same decomposition
with every occurrence rewritten, each method name and every gap — in
particular all text after each `self`, i.e. the remaining parameters —
preserved verbatim.  The exactly-one-occurrence case of the claim is the
instance with a one-entry list. -/
theorem c4_rule1_every_occurrence :
    ∀ (segs : List (Str × Str)) (tail : Str), rule1Clean segs tail = true →
      rule1 (rule1Src segs tail) = rule1Dst segs tail := by
  intro segs
  induction segs with
  | nil =>
    intro tail h
    simp only [rule1Clean, Bool.not_eq_true'] at h
    exact reSub_id_of_no_match tail h
  | cons pn rest ih =>
    obtain ⟨p, name⟩ := pn
    intro tail h
    simp only [rule1Clean, Bool.and_eq_true, List.all_eq_true] at h
    obtain ⟨⟨⟨hne, hword⟩, hpre⟩, hclean⟩ := h
    have hn : name ≠ [] := by
      cases name with
      | nil => simp at hne
      | cons a l => simp
    have hp : ∀ i, i < p.length →
        matchRule1 (List.drop i
          (p ++ ("pub fn ".toList ++ (name ++
            ("(&mut self".toList ++ rule1Src rest tail))))) = none := by
      intro i hi
      have := hpre i (List.mem_range.mpr hi)
      rw [Option.isNone_iff_eq_none] at this
      exact this
    show reSub matchRule1 (rule1Src ((p, name) :: rest) tail) = _
    rw [show rule1Src ((p, name) :: rest) tail =
        p ++ ("pub fn ".toList ++ (name ++ ("(&mut self".toList ++ rule1Src rest tail)))
      from rfl]
    rw [reSub_append_none p _ hp]
    rw [reSub_match consumes_matchRule1
      (matchRule1_at_head name (rule1Src rest tail) hn hword)]
    rw [show reSub matchRule1 (rule1Src rest tail) = rule1 (rule1Src rest tail) from rfl,
      ih tail hclean]
    rw [show rule1Dst ((p, name) :: rest) tail =
        p ++ ("pub fn ".toList ++ (name ++ ("(&self".toList ++ rule1Dst rest tail)))
      from rfl]
    simp [List.append_assoc]

/-- C4 (witness): a concrete text with two method declarations, separated
by non-matching gaps; both occurrences are rewritten and everything else
is verbatim, shown once through the theorem and once by direct evaluation
of the pipeline on the flat text. -/
theorem c4_rule1_every_occurrence_witness :
    rule1Clean [("x\n".toList, "start".toList), (" y ".toList, "stop".toList)]
      ", t: u64)".toList = true ∧
    rule1Src [("x\n".toList, "start".toList), (" y ".toList, "stop".toList)]
      ", t: u64)".toList =
      "x\npub fn start(&mut self y pub fn stop(&mut self, t: u64)".toList ∧
    rule1 "x\npub fn start(&mut self y pub fn stop(&mut self, t: u64)".toList =
      "x\npub fn start(&self y pub fn stop(&self, t: u64)".toList ∧
    rule1 (rule1Src [("x\n".toList, "start".toList), (" y ".toList, "stop".toList)]
        ", t: u64)".toList) =
      rule1Dst [("x\n".toList, "start".toList), (" y ".toList, "stop".toList)]
        ", t: u64)".toList :=
  ⟨by decide, by decide, by decide,
    c4_rule1_every_occurrence
      [("x\n".toList, "start".toList), (" y ".toList, "stop".toList)]
      ", t: u64)".toList (by decide)⟩

/-- C5: the three assignment rules on their concrete example lines, with
`make_bar()` preserved in the output. -/
theorem c5_assign_rules_concrete :
    rule2 "self.main_bar = Some(make_bar());".toList =
      "*self.main_bar.borrow_mut() = Some(make_bar());".toList ∧
    rule3 "self.content_bar = Some(make_bar());".toList =
      "*self.content_bar.borrow_mut() = Some(make_bar());".toList ∧
    rule4 "self.rename_bar = Some(make_bar());".toList =
      "*self.rename_bar.borrow_mut() = Some(make_bar());".toList := by
  refine ⟨by decide, by decide, by decide⟩

/-- C6: rule 5 (the three if-let substitutions, applied in source order) on
the concrete example line, with the trailing text after the matched
pattern preserved. -/
theorem c6_iflet_concrete :
    rule7 (rule6 (rule5 "if let Some(pb) = &self.rename_bar \x7b".toList)) =
      "if let Some(pb) = self.rename_bar.borrow().as_ref() \x7b".toList := by
  decide

set_option maxRecDepth 200000 in
/-- C7: one run of the script reads the hard-coded path, applies the
pipeline, and overwrites the same file; on the fixture containing each of
the five described patterns exactly once, the stored file is the fixture
with exactly those five lines rewritten (five lines differ, the line count
is unchanged, every other line is identical), the confirmation line is
printed and the exit status is zero. -/
theorem c7_end_to_end_fixture :
    (runScript { contents := some fixtureIn, readable := true, writable := true }).fileAfter =
      some fixtureOut ∧
    (runScript { contents := some fixtureIn, readable := true, writable := true }).stdoutLines =
      [confirmLine] ∧
    (runScript { contents := some fixtureIn, readable := true, writable := true }).exitCode = 0 ∧
    (splitOnNl fixtureIn).length = (splitOnNl fixtureOut).length ∧
    ((splitOnNl fixtureIn).zip (splitOnNl fixtureOut)).countP (fun p => !(p.1 == p.2)) = 5 := by
  refine ⟨?_, by decide, by decide, by decide, by decide⟩
  show some (fixContent fixtureIn) = some fixtureOut
  decide

/-- C8: the confirmation line is emitted if and only if the read and the
write both succeed, the exit status is zero under exactly the same
condition, and on any failure nothing is printed. -/
theorem c8_confirm_iff_success (w : World) :
    ((runScript w).stdoutLines = [confirmLine] ↔
      (w.contents.isSome = true ∧ w.readable = true ∧ w.writable = true)) ∧
    ((runScript w).exitCode = 0 ↔
      (w.contents.isSome = true ∧ w.readable = true ∧ w.writable = true)) ∧
    ((runScript w).stdoutLines = [] ↔
      ¬(w.contents.isSome = true ∧ w.readable = true ∧ w.writable = true)) := by
  obtain ⟨c, r, wr⟩ := w
  cases c <;> cases r <;> cases wr <;> simp [runScript, confirmLine]

/-- C8 (witness): on a world where the target file is missing, the script
prints nothing and exits with a non-zero status. -/
theorem c8_confirm_iff_success_witness :
    (runScript { contents := none, readable := true, writable := true }).stdoutLines = [] ∧
    ¬(runScript { contents := none, readable := true, writable := true }).exitCode = 0 :=
  ⟨(c8_confirm_iff_success { contents := none, readable := true, writable := true }).2.2.mpr
      (by simp),
    fun h =>
      (by simp :
        ¬((none : Option Str).isSome = true ∧ true = true ∧ true = true))
        ((c8_confirm_iff_success
          { contents := none, readable := true, writable := true }).2.1.mp h)⟩

/-- C9: every pattern and replacement is newline-free and matching never
crosses a newline, so the pipeline preserves the number of lines, and
every line with zero occurrences of every pattern appears verbatim at the
same position of the output. -/
theorem c9_lines_preserved (t : Str) :
    (splitOnNl (fixContent t)).length = (splitOnNl t).length ∧
    ∀ (i : Nat) (l : Str), (splitOnNl t)[i]? = some l → noMatchAll l = true →
      (splitOnNl (fixContent t))[i]? = some l := by
  constructor
  · rw [splitOnNl_fixContent]
    simp
  · intro i l hi hl
    rw [splitOnNl_fixContent, List.getElem?_map, hi]
    simp [fixContent_id_of_noMatchAll hl]

/-- C9 (witness): a concrete two-line text whose first line matches no
pattern; the pipeline keeps the line count and leaves that line in place.
-/
theorem c9_lines_preserved_witness :
    (splitOnNl (fixContent "use std::fs;\npub fn go(&mut self) -> u64".toList)).length =
      (splitOnNl "use std::fs;\npub fn go(&mut self) -> u64".toList).length ∧
    (splitOnNl "use std::fs;\npub fn go(&mut self) -> u64".toList)[0]? =
      some "use std::fs;".toList ∧
    noMatchAll "use std::fs;".toList = true ∧
    (splitOnNl (fixContent "use std::fs;\npub fn go(&mut self) -> u64".toList))[0]? =
      some "use std::fs;".toList :=
  ⟨(c9_lines_preserved "use std::fs;\npub fn go(&mut self) -> u64".toList).1,
    by decide, by decide,
    (c9_lines_preserved "use std::fs;\npub fn go(&mut self) -> u64".toList).2 0
      "use std::fs;".toList (by decide) (by decide)⟩

/-- C10: on any world where the read fails (the file is missing or not
readable), the script aborts before opening the file for writing: the file
contents are unchanged, nothing is printed, and the exit status is
non-zero. -/
theorem c10_read_failure_leaves_file (w : World)
    (h : w.contents = none ∨ w.readable = false) :
    (runScript w).fileAfter = w.contents ∧
    (runScript w).stdoutLines = [] ∧
    (runScript w).exitCode ≠ 0 := by
  obtain ⟨c, r, wr⟩ := w
  cases c <;> cases r <;> simp_all [runScript]

/-- C10 (witness): the concrete world with a missing target file. -/
theorem c10_read_failure_leaves_file_witness :
    (({ contents := none, readable := true, writable := true } : World).contents = none ∨
      ({ contents := none, readable := true, writable := true } : World).readable = false) ∧
    ((runScript { contents := none, readable := true, writable := true }).fileAfter = none ∧
      (runScript { contents := none, readable := true, writable := true }).stdoutLines = [] ∧
      (runScript { contents := none, readable := true, writable := true }).exitCode ≠ 0) :=
  ⟨Or.inl rfl,
    c10_read_failure_leaves_file { contents := none, readable := true, writable := true }
      (Or.inl rfl)⟩

end FixProgress
